import Mathlib

/-!
Verification development for the database-backed multi-worker job queue.

The development shallowly embeds the program's components:

* the mock external mail API (`sendEmail`, its rate limiter and idempotency
  cache) and the error classes, from `src/lib/orm.ts`;
* the failure classifiers `isTransientError` / `isPermanentError`, from
  `src/unnamed/part_002`;
* the `job_steps` table with its `UNIQUE(job_id, step_name)` constraint,
  from `src/setup.ts`, together with the `UNIQUE_VIOLATION` error mapping
  of `executeSql` from `src/lib/database.ts`;
* the transaction wrapper with its global depth counter, from
  `src/lib/database.ts`;
* the queue core (`claimNextJob`, `createCampaignJobs`, `processJob`,
  `recoverStalledJobs`), which is left unimplemented in the source
  (TODO stubs) and is therefore modelled from the specification.

Machine timestamps are embedded as `Int` (JS `Date.now()` arithmetic,
including possibly negative differences).  The random draw of the mock
API and its configured error rate are probabilities in [0, 1); they are
embedded in fixed point as `Int` millionths, and each comparison against
a scaled error rate is multiplied out (`rand < errorRate * 0.3` becomes
`10 * rand < 3 * errorRate`), which preserves the source's comparison
structure exactly over the rationals.
-/

namespace Backend

/-! ## External API error classes (src/lib/orm.ts, error classes section)

Each JS error class is distinguished by its `name` property; `instanceof`
is never used by the classifiers, which compare `error.name` strings. -/

inductive ApiError where
  | sendGridError
  | rateLimitError
  | invalidEmailError
  | timeoutError
  | salesforceError
  | sentimentAPIError
deriving DecidableEq, Repr

/-- The JS `name` property of each error class, as set in its constructor. -/
def ApiError.name : ApiError → String
  | .sendGridError => "SendGridError"
  | .rateLimitError => "RateLimitError"
  | .invalidEmailError => "InvalidEmailError"
  | .timeoutError => "TimeoutError"
  | .salesforceError => "SalesforceError"
  | .sentimentAPIError => "SentimentAPIError"

/-! ## Failure classifiers (src/unnamed/part_002, helper section) -/

/-- Embeds `isTransientError`: true when the error's name is
`RateLimitError` or `TimeoutError`. -/
def isTransientError (e : ApiError) : Bool :=
  e.name = "RateLimitError" || e.name = "TimeoutError"

/-- Embeds `isPermanentError`: true when the error's name is
`InvalidEmailError`. -/
def isPermanentError (e : ApiError) : Bool :=
  e.name = "InvalidEmailError"

/-! ## Mock SendGrid API (src/lib/orm.ts, mock external APIs section) -/

/-- Configuration of the mock SendGrid API (`apiConfig.sendgrid`). -/
structure SendgridConfig where
  rateLimitPerSecond : Nat
  errorRate : Int
  latencyMs : Int
  enabled : Bool
deriving DecidableEq, Repr

/-- The shipped default configuration (`apiConfig` initializer). -/
def sendgridDefaultConfig : SendgridConfig :=
  { rateLimitPerSecond := 500, errorRate := 50000, latencyMs := 200, enabled := true }

/-- One idempotency-cache entry (`idempotencyCache` map values). -/
structure CacheEntry where
  messageId : String
  timestamp : Int
deriving DecidableEq, Repr

/-- State of the `RateLimiter` instance `sendgridLimiter`.  The
`deliveries` field is observational ghost state: it records each
externally visible delivery (the point where the mock generates a fresh
message id and logs the send), which the source marks by the
`console.log` at the end of `sendEmail`. -/
structure LimiterState where
  requests : List Int
  idempotencyCache : List (String × CacheEntry)
  deliveries : List (String × String)
deriving DecidableEq, Repr

/-- Lookup in the idempotency cache (JS `Map.get`). -/
def cacheLookup : List (String × CacheEntry) → String → Option CacheEntry
  | [], _ => none
  | p :: rest, k => if p.1 = k then some p.2 else cacheLookup rest k

/-- Insert-or-replace in the idempotency cache (JS `Map.set`). -/
def cacheSet : List (String × CacheEntry) → String → CacheEntry → List (String × CacheEntry)
  | [], k, e => [(k, e)]
  | p :: rest, k, e => if p.1 = k then (k, e) :: rest else p :: cacheSet rest k e

/-- Removal from the idempotency cache (JS `Map.delete`). -/
def cacheDelete (c : List (String × CacheEntry)) (k : String) : List (String × CacheEntry) :=
  c.filter (fun p => ¬(p.1 = k))

/-- Validity window of an idempotency key: 24 hours in milliseconds. -/
def idempotencyWindowMs : Int := 24 * 60 * 60 * 1000

/-- Embeds `RateLimiter.checkIdempotency`: a fresh cached entry is
returned; an expired entry is deleted. -/
def checkIdempotency (st : LimiterState) (key : String) (now : Int) :
    Option String × LimiterState :=
  match cacheLookup st.idempotencyCache key with
  | some cached =>
    if now - cached.timestamp < idempotencyWindowMs then
      (some cached.messageId, st)
    else
      (none, { st with idempotencyCache := cacheDelete st.idempotencyCache key })
  | none => (none, st)

/-- Embeds `RateLimiter.checkRateLimit`: drops requests older than one
second, refuses when the remaining count reaches the limit, and records
the new request otherwise. -/
def checkRateLimit (st : LimiterState) (limitPerSecond : Nat) (now : Int) :
    Bool × LimiterState :=
  let reqs := st.requests.filter (fun t => now - t < 1000)
  if limitPerSecond ≤ reqs.length then
    (false, { st with requests := reqs })
  else
    (true, { st with requests := reqs ++ [now] })

/-- Embeds `RateLimiter.cacheIdempotency`. -/
def cacheIdempotency (st : LimiterState) (key messageId : String) (now : Int) :
    LimiterState :=
  { st with idempotencyCache := cacheSet st.idempotencyCache key ⟨messageId, now⟩ }

/-- Embeds the JS validation `to.includes('@') && to.includes('.')`
(single-character containment over the string's characters). -/
def emailValid (toAddr : String) : Bool :=
  toAddr.data.contains '@' && toAddr.data.contains '.'

/-- Embeds `sendEmail(to, body, idempotencyKey)` from src/lib/orm.ts.
Inputs beyond the JS arguments make the implicit machine state explicit:
`now` is `Date.now()`, `rand` the `Math.random()` draw, `freshId` the
generated message id.  The result carries the returned value or thrown
error, the successor limiter state, and the total sleep delay in
milliseconds (50 on the cached path, the configured latency otherwise). -/
def sendEmail (cfg : SendgridConfig) (st : LimiterState)
    (toAddr body idempotencyKey : String) (now : Int) (rand : Int) (freshId : String) :
    Except ApiError String × LimiterState × Int :=
  if ¬cfg.enabled then
    (.error .sendGridError, st, 0)
  else
    match checkIdempotency st idempotencyKey now with
    | (some cachedMessageId, st1) => (.ok cachedMessageId, st1, 50)
    | (none, st1) =>
      if ¬emailValid toAddr then
        (.error .invalidEmailError, st1, cfg.latencyMs)
      else
        match checkRateLimit st1 cfg.rateLimitPerSecond now with
        | (false, st2) => (.error .rateLimitError, st2, cfg.latencyMs)
        | (true, st2) =>
          if 10 * rand < 3 * cfg.errorRate then
            (.error .timeoutError, st2, cfg.latencyMs)
          else if 10 * rand < 6 * cfg.errorRate then
            (.error .rateLimitError, st2, cfg.latencyMs)
          else if rand < cfg.errorRate then
            (.error .sendGridError, st2, cfg.latencyMs)
          else
            (.ok freshId,
             { cacheIdempotency st2 idempotencyKey freshId now with
                 deliveries := st2.deliveries ++ [(idempotencyKey, freshId)] },
             cfg.latencyMs)

/-- One invocation of the mail API in a multi-call run. -/
structure Call where
  toAddr : String
  body : String
  key : String
  now : Int
  rand : Int
  freshId : String
deriving DecidableEq, Repr

/-- Sequential run of several `sendEmail` invocations against the shared
limiter state. -/
def runCalls (cfg : SendgridConfig) : List Call → LimiterState →
    List (Except ApiError String) × LimiterState
  | [], st => ([], st)
  | c :: rest, st =>
    let r := sendEmail cfg st c.toAddr c.body c.key c.now c.rand c.freshId
    let rs := runCalls cfg rest r.2.1
    (r.1 :: rs.1, rs.2)

/-- Deliveries recorded for a given idempotency key. -/
def deliveriesFor (k : String) (st : LimiterState) : List (String × String) :=
  st.deliveries.filter (fun d => d.1 = k)

/-! ## Enums and the Job record (src/lib/orm.ts, enums and interfaces) -/

inductive JobStatus where
  | pending
  | processing
  | failed
  | completed
deriving DecidableEq, Repr

inductive JobStepName where
  | sendEmail
  | analyze
  | takeAction
deriving DecidableEq, Repr

inductive JobStepStatus where
  | pending
  | inProgress
  | completed
  | failed
deriving DecidableEq, Repr

/-- The `Job` interface of src/lib/orm.ts; timestamps in milliseconds. -/
structure Job where
  id : Nat
  campaignId : Nat
  customerEmail : String
  currentStep : JobStepName
  status : JobStatus
  workerId : Option String
  retryCount : Nat
  createdAt : Int
  startedAt : Option Int
  completedAt : Option Int
  errorMessage : Option String
  scheduledFor : Option Int
  lastHeartbeat : Option Int
deriving DecidableEq, Repr

/-! ## The job_steps table and its uniqueness constraint (src/setup.ts)

The schema declares `UNIQUE(job_id, step_name)`; SQLite rejects an
insert that would duplicate the pair, and `executeSql`
(src/lib/database.ts) maps the SQLite message to an error object whose
`code` is `UNIQUE_VIOLATION`.  The table model embeds exactly the
operations the repository performs on job_steps: row insertion
(`BaseModel.save` on a fresh record), row deletion (`BaseModel.delete`),
and full clearing (`resetDatabase`). -/

structure JobStepRow where
  id : Nat
  jobId : Nat
  stepName : JobStepName
  status : JobStepStatus
  outputData : Option String
  startedAt : Int
  completedAt : Option Int
deriving DecidableEq, Repr

inductive DbError where
  | uniqueViolation
deriving DecidableEq, Repr

/-- The `code` property `executeSql` attaches to the thrown error. -/
def DbError.code : DbError → String
  | .uniqueViolation => "UNIQUE_VIOLATION"

structure JobStepsTable where
  rows : List JobStepRow
  nextId : Nat
deriving DecidableEq, Repr

def JobStepsTable.empty : JobStepsTable := ⟨[], 1⟩

/-- Existence of a row with the given (job_id, step_name) pair. -/
def hasPair (t : JobStepsTable) (jobId : Nat) (step : JobStepName) : Bool :=
  t.rows.any (fun r => r.jobId = jobId ∧ r.stepName = step)

/-- Insert into job_steps: SQLite enforces `UNIQUE(job_id, step_name)`,
so a duplicate pair makes the statement fail; `executeSql` rethrows it
with code `UNIQUE_VIOLATION` and the table is unchanged. -/
def insertJobStep (t : JobStepsTable) (jobId : Nat) (step : JobStepName)
    (status : JobStepStatus) (outputData : Option String) (now : Int) :
    Except DbError Nat × JobStepsTable :=
  if hasPair t jobId step then
    (.error .uniqueViolation, t)
  else
    (.ok t.nextId,
     ⟨t.rows ++ [⟨t.nextId, jobId, step, status, outputData, now, none⟩], t.nextId + 1⟩)

/-- Deletion of one row by id (`BaseModel.delete`). -/
def deleteJobStep (t : JobStepsTable) (rowId : Nat) : JobStepsTable :=
  ⟨t.rows.filter (fun r => ¬(r.id = rowId)), t.nextId⟩

/-- States of the job_steps table reachable by the operations the
repository performs on it. -/
inductive ReachableSteps : JobStepsTable → Prop where
  | empty : ReachableSteps JobStepsTable.empty
  | insert (t : JobStepsTable) (jobId : Nat) (step : JobStepName)
      (status : JobStepStatus) (outputData : Option String) (now : Int) :
      ReachableSteps t →
      ReachableSteps (insertJobStep t jobId step status outputData now).2
  | delete (t : JobStepsTable) (rowId : Nat) :
      ReachableSteps t → ReachableSteps (deleteJobStep t rowId)
  | reset (t : JobStepsTable) : ReachableSteps t → ReachableSteps ⟨[], t.nextId⟩

/-- No two distinct rows of the table share a (job_id, step_name) pair. -/
def uniquePerPair (t : JobStepsTable) : Prop :=
  t.rows.Pairwise (fun a b => ¬(a.jobId = b.jobId ∧ a.stepName = b.stepName))

/-! ## The transaction wrapper (src/lib/database.ts)

The wrapper keeps a module-global `transactionDepth`; `BEGIN` runs only
when the depth is 0, `COMMIT` when an exiting callback brings it back to
0, and `ROLLBACK` when an exiting error brings it back to 0.  The store
is modelled as a key-value table; `snap` is the state saved by `BEGIN`
and restored by `ROLLBACK`.  Callbacks are embedded as programs in a
small action language: writes, sequencing, throwing, try/catch, and
nested `transaction(...)` calls. -/

structure TxState where
  db : List (String × Int)
  depth : Nat
  snap : List (String × Int)
deriving DecidableEq, Repr

/-- Insert-or-replace a key in the key-value table. -/
def dbSet : List (String × Int) → String → Int → List (String × Int)
  | [], k, v => [(k, v)]
  | p :: rest, k, v => if p.1 = k then (k, v) :: rest else p :: dbSet rest k v

def dbLookup : List (String × Int) → String → Option Int
  | [], _ => none
  | p :: rest, k => if p.1 = k then some p.2 else dbLookup rest k

/-- Callback programs run inside (or around) `transaction(...)`. -/
inductive Act where
  | nop
  | write (k : String) (v : Int)
  | seq (a b : Act)
  | fail
  | tryCatch (body handler : Act)
  | tx (body : Act)
deriving DecidableEq, Repr

/-- Embeds the control flow of `transaction` from src/lib/database.ts;
the returned Bool is true when the action exits by a thrown error. -/
def exec : Act → TxState → TxState × Bool
  | .nop, s => (s, false)
  | .write k v, s => ({ s with db := dbSet s.db k v }, false)
  | .fail, s => (s, true)
  | .seq a b, s =>
    match exec a s with
    | (s1, true) => (s1, true)
    | (s1, false) => exec b s1
  | .tryCatch body handler, s =>
    match exec body s with
    | (s1, true) => exec handler s1
    | (s1, false) => (s1, false)
  | .tx body, s =>
    let s1 : TxState :=
      if s.depth = 0 then { s with snap := s.db, depth := 1 }
      else { s with depth := s.depth + 1 }
    match exec body s1 with
    | (s2, false) =>
      ({ s2 with depth := s2.depth - 1 }, false)
    | (s2, true) =>
      if s2.depth - 1 = 0 then
        ({ db := s2.snap, depth := 0, snap := s2.snap }, true)
      else
        ({ s2 with depth := s2.depth - 1 }, true)

/-- State before any transaction: empty table, depth 0. -/
def txInit : TxState := ⟨[], 0, []⟩

/-- The program refuting claim C9: an outer transaction writes A, then
catches the error thrown inside a nested transaction that wrote B. -/
def nestedCatchProg : Act :=
  .tx (.seq (.write "A" 1) (.tryCatch (.tx (.seq (.write "B" 2) .fail)) .nop))

/-- Entry into a top-level transaction (`BEGIN` at depth 0). -/
def txEnter (s : TxState) : TxState := { s with snap := s.db, depth := 1 }

/-! ## The queue core, modelled from the specification

The four core functions are TODO stubs in the source (src/unnamed/part_001
and part_002 throw `Not implemented`); the definitions below follow the
specification's words (spec.md sections 4.1 to 4.5). -/

/-- Shared store state for the queue core: the jobs table, the job_steps
ledger, and the autoincrement counters. -/
structure Store where
  jobs : List Job
  steps : List JobStepRow
  nextJobId : Nat
  nextStepId : Nat
deriving DecidableEq, Repr

/-- Modelled from the spec (4.1): a job is eligible for claiming when
`status = Pending` and `scheduledFor` is unset or due. -/
def eligibleb (now : Int) (j : Job) : Bool :=
  j.status = JobStatus.pending &&
    (match j.scheduledFor with
     | none => true
     | some t => t ≤ now)

/-- Ordering of claim candidates: `createdAt` ascending, ties broken by
id ascending (spec 4.1). -/
def betterCandidate (a b : Job) : Bool :=
  a.createdAt < b.createdAt || (a.createdAt = b.createdAt && a.id < b.id)

/-- First-best candidate of a list under `betterCandidate`. -/
def pickMin : List Job → Option Job
  | [] => none
  | j :: rest =>
    match pickMin rest with
    | none => some j
    | some b => if betterCandidate b j then some b else some j

/-- Modelled from the spec: `claimNextJob` (spec 4.1) is unimplemented in
the source; the spec requires selecting one eligible Pending row, oldest
`createdAt` first with id tiebreak, and atomically transitioning it to
Processing with `workerId`, `startedAt`, `lastHeartbeat` set to now.
The whole function is one atomic unit, so a concurrent execution of
several claims is a sequence of these steps. -/
def claimedJob (workerId : String) (now : Int) (j : Job) : Job :=
  { j with status := .processing, workerId := some workerId,
           startedAt := some now, lastHeartbeat := some now }

def claimNextJob (workerId : String) (now : Int) (s : Store) : Option Job × Store :=
  match pickMin (s.jobs.filter (eligibleb now)) with
  | none => (none, s)
  | some j =>
    (some (claimedJob workerId now j),
     { s with jobs := s.jobs.map (fun x =>
         if x.id = j.id then claimedJob workerId now j else x) })

/-- Serialization of N concurrent claim calls: each call is atomic, so
any concurrent execution is some sequence of the atomic claim steps. -/
def runClaims (now : Int) : List String → Store → List (Option Job) × Store
  | [], s => ([], s)
  | w :: rest, s =>
    let r := claimNextJob w now s
    let rs := runClaims now rest r.2
    (r.1 :: rs.1, rs.2)

/-- Modelled from the spec (4.2): a freshly enqueued job starts at
`status = Pending, currentStep = SendEmail, retryCount = 0`. -/
def mkJob (campaignId : Nat) (email : String) (jobId : Nat) (now : Int) : Job :=
  { id := jobId, campaignId := campaignId, customerEmail := email,
    currentStep := .sendEmail, status := .pending, workerId := none,
    retryCount := 0, createdAt := now, startedAt := none, completedAt := none,
    errorMessage := none, scheduledFor := none, lastHeartbeat := none }

/-- One job row per input address, with consecutive fresh ids. -/
def mkJobs (campaignId : Nat) (now : Int) : Nat → List String → List Job
  | _, [] => []
  | nid, e :: rest => mkJob campaignId e nid now :: mkJobs campaignId now (nid + 1) rest

/-- Modelled from the spec: `createCampaignJobs` (spec 4.2) is
unimplemented in the source; the spec requires one Job per input address
(duplicates included), all Pending at SendEmail with retryCount 0,
returning the count, and no store interaction on empty input.  Batch
grouping only affects round trips, not the resulting store contents, so
the model inserts the rows in one step. -/
def createCampaignJobs (campaignId : Nat) (emails : List String) (now : Int)
    (s : Store) : Nat × Store :=
  if emails.isEmpty then (0, s)
  else
    (emails.length,
     { s with jobs := s.jobs ++ mkJobs campaignId now s.nextJobId emails,
              nextJobId := s.nextJobId + emails.length })

/-- Successor of a workflow step (`getNextStep` of src/unnamed/part_002,
over the src/lib/orm.ts enum). -/
def nextStep : JobStepName → Option JobStepName
  | .sendEmail => some .analyze
  | .analyze => some .takeAction
  | .takeAction => none

def findJob (s : Store) (jobId : Nat) : Option Job :=
  s.jobs.find? (fun j => j.id = jobId)

def updateJob (s : Store) (jobId : Nat) (f : Job → Job) : Store :=
  { s with jobs := s.jobs.map (fun x => if x.id = jobId then f x else x) }

/-- Existence of a completed ledger record for (job, step) (spec 4.3's
idempotency check). -/
def ledgerCompleted (s : Store) (jobId : Nat) (step : JobStepName) : Bool :=
  s.steps.any (fun r => r.jobId = jobId ∧ r.stepName = step ∧ r.status = JobStepStatus.completed)

/-- Number of ledger rows for a (job, step) pair. -/
def ledgerCount (s : Store) (jobId : Nat) (step : JobStepName) : Nat :=
  s.steps.countP (fun r => r.jobId = jobId ∧ r.stepName = step)

/-- Modelled from the spec (4.3): end-of-step transition; success on a
non-terminal step re-queues at the next step clearing ownership, success
on the terminal step completes the job. -/
def advanceJob (now : Int) (j : Job) : Job :=
  match nextStep j.currentStep with
  | some n => { j with status := .pending, currentStep := n, workerId := none }
  | none => { j with status := .completed, completedAt := some now, workerId := none }

/-- Appends a completed ledger row for (job, step) (spec 4.3: the record
is written with the action, within the advancing transaction). -/
def insertLedger (s : Store) (jobId : Nat) (step : JobStepName) (now : Int) : Store :=
  { s with
      steps := s.steps ++ [⟨s.nextStepId, jobId, step, .completed, none, now, some now⟩],
      nextStepId := s.nextStepId + 1 }

/-- Outcome of the current step's side-effecting action, supplied as an
oracle: the external collaborator may succeed, fail transiently
(rate limit, timeout), or fail permanently (invalid address). -/
inductive StepOutcome where
  | success
  | transientFailure
  | permanentFailure
deriving DecidableEq, Repr

/-- Modelled from the spec: `processJob` (spec 4.3, with the retry
classification of 4.4) is unimplemented in the source.  The model reads
the job, skips terminal jobs, consults the (job, step) ledger before the
action (present and successful: skip the action, advance), and otherwise
attempts the action with the given outcome: success writes the ledger
row and advances atomically; a transient failure below the retry ceiling
re-queues the same step with `retryCount` incremented; a permanent
failure (or an exhausted ceiling) moves the job to Failed with an error
message.  The returned list records the collaborator invocations
(job id, step) the call performed. -/
def processJob (maxRetries : Nat) (now : Int) (s : Store) (jobId : Nat)
    (outcome : StepOutcome) : Store × List (Nat × JobStepName) :=
  match findJob s jobId with
  | none => (s, [])
  | some j =>
    if j.status = JobStatus.completed ∨ j.status = JobStatus.failed then
      (s, [])
    else
      if ledgerCompleted s jobId j.currentStep then
        (updateJob s jobId (advanceJob now), [])
      else
        match outcome with
        | .success =>
          (updateJob (insertLedger s jobId j.currentStep now) jobId (advanceJob now),
           [(jobId, j.currentStep)])
        | .transientFailure =>
          if j.retryCount < maxRetries then
            (updateJob s jobId (fun x =>
               { x with status := .pending, retryCount := x.retryCount + 1,
                        workerId := none }),
             [(jobId, j.currentStep)])
          else
            (updateJob s jobId (fun x =>
               { x with status := .failed,
                        errorMessage := some "retry limit exceeded",
                        workerId := none }),
             [(jobId, j.currentStep)])
        | .permanentFailure =>
          (updateJob s jobId (fun x =>
             { x with status := .failed,
                      errorMessage := some "permanent failure",
                      workerId := none }),
           [(jobId, j.currentStep)])

/-- Modelled from the spec (4.5): the staleness predicate — Processing,
and `lastHeartbeat` (falling back to `startedAt` when no heartbeat was
recorded) older than the timeout. -/
def isStalled (timeoutSeconds : Int) (now : Int) (j : Job) : Bool :=
  j.status = JobStatus.processing &&
    (match j.lastHeartbeat with
     | some t => t < now - timeoutSeconds * 1000
     | none =>
       match j.startedAt with
       | some t => t < now - timeoutSeconds * 1000
       | none => false)

/-- Modelled from the spec (4.5): the reset applied to a stalled job —
back to Pending with `workerId`, `startedAt`, `lastHeartbeat` cleared. -/
def resetJob (j : Job) : Job :=
  { j with status := .pending, workerId := none, startedAt := none,
           lastHeartbeat := none }

/-- Conditional update of one row: only a row matching the staleness
predicate is rewritten (spec 4.5: the update re-checks the condition). -/
def recoverOne (timeoutSeconds : Int) (now : Int) (j : Job) : Job :=
  if isStalled timeoutSeconds now j then resetJob j else j

/-- Modelled from the spec: `recoverStalledJobs` (spec 4.5) is
unimplemented in the source; the spec requires an atomic conditional
update resetting exactly the stalled Processing rows and returning
their count. -/
def recoverStalledJobs (timeoutSeconds : Int) (now : Int) (s : Store) : Nat × Store :=
  (s.jobs.countP (isStalled timeoutSeconds now),
   { s with jobs := s.jobs.map (recoverOne timeoutSeconds now) })

/-! ## Helper lemmas -/

theorem checkIdempotency_hit (st : LimiterState) (k : String) (now : Int)
    (m : String) (t0 : Int)
    (hc : cacheLookup st.idempotencyCache k = some ⟨m, t0⟩)
    (hw : now - t0 < idempotencyWindowMs) :
    checkIdempotency st k now = (some m, st) := by
  unfold checkIdempotency
  rw [hc]
  simp [hw]

theorem sendEmail_cached_hit (cfg : SendgridConfig) (st : LimiterState)
    (toAddr body k : String) (now : Int) (rand : Int) (freshId : String)
    (m : String) (t0 : Int)
    (hen : cfg.enabled = true)
    (hc : cacheLookup st.idempotencyCache k = some ⟨m, t0⟩)
    (hw : now - t0 < idempotencyWindowMs) :
    sendEmail cfg st toAddr body k now rand freshId = (.ok m, st, 50) := by
  unfold sendEmail
  rw [checkIdempotency_hit st k now m t0 hc hw]
  simp [hen]

theorem cacheLookup_set_ne (c : List (String × CacheEntry)) (k k' : String)
    (e : CacheEntry) (h : k' ≠ k) :
    cacheLookup (cacheSet c k' e) k = cacheLookup c k := by
  induction c with
  | nil => simp [cacheSet, cacheLookup, h]
  | cons p rest ih =>
    by_cases hp : p.1 = k'
    · have hpk : ¬(p.1 = k) := by rw [hp]; exact h
      simp [cacheSet, cacheLookup, hp, hpk, h]
    · simp only [cacheSet, hp, if_false, cacheLookup]
      by_cases hk : p.1 = k <;> simp [hk, ih]

theorem cacheLookup_delete_ne (c : List (String × CacheEntry)) (k k' : String)
    (h : k' ≠ k) :
    cacheLookup (cacheDelete c k') k = cacheLookup c k := by
  induction c with
  | nil => rfl
  | cons p rest ih =>
    by_cases hp : p.1 = k'
    · simp [cacheDelete, cacheLookup, hp, h, List.filter_cons] at ih ⊢
      exact ih
    · simp [cacheDelete, cacheLookup, hp, List.filter_cons] at ih ⊢
      by_cases hk : p.1 = k <;> simp [hk, ih]

theorem checkIdempotency_preserves (st : LimiterState) (ckey : String) (cnow : Int)
    (k : String) (hk : ckey ≠ k) :
    cacheLookup (checkIdempotency st ckey cnow).2.idempotencyCache k =
      cacheLookup st.idempotencyCache k ∧
    (checkIdempotency st ckey cnow).2.deliveries = st.deliveries ∧
    (checkIdempotency st ckey cnow).2.requests = st.requests := by
  unfold checkIdempotency
  split
  · split
    · exact ⟨rfl, rfl, rfl⟩
    · exact ⟨cacheLookup_delete_ne _ _ _ hk, rfl, rfl⟩
  · exact ⟨rfl, rfl, rfl⟩

theorem checkRateLimit_cache (st : LimiterState) (lim : Nat) (cnow : Int) :
    (checkRateLimit st lim cnow).2.idempotencyCache = st.idempotencyCache ∧
    (checkRateLimit st lim cnow).2.deliveries = st.deliveries := by
  unfold checkRateLimit
  dsimp only
  split <;> exact ⟨rfl, rfl⟩

theorem sendEmail_preserves_key (cfg : SendgridConfig) (st : LimiterState)
    (toAddr body ckey : String) (cnow : Int) (rand : Int) (fid : String)
    (k m : String) (t0 : Int)
    (hen : cfg.enabled = true)
    (hc : cacheLookup st.idempotencyCache k = some ⟨m, t0⟩)
    (hw : cnow - t0 < idempotencyWindowMs) :
    cacheLookup (sendEmail cfg st toAddr body ckey cnow rand fid).2.1.idempotencyCache k =
      some ⟨m, t0⟩ ∧
    deliveriesFor k (sendEmail cfg st toAddr body ckey cnow rand fid).2.1 =
      deliveriesFor k st ∧
    (ckey = k → (sendEmail cfg st toAddr body ckey cnow rand fid).1 = .ok m) := by
  by_cases hkey : ckey = k
  · subst hkey
    rw [sendEmail_cached_hit cfg st toAddr body ckey cnow rand fid m t0 hen hc hw]
    exact ⟨hc, rfl, fun _ => rfl⟩
  · rcases hci : checkIdempotency st ckey cnow with ⟨o, st1⟩
    have hid := checkIdempotency_preserves st ckey cnow k hkey
    rw [hci] at hid
    dsimp only at hid
    cases o with
    | some mid =>
      have hse : sendEmail cfg st toAddr body ckey cnow rand fid = (.ok mid, st1, 50) := by
        simp [sendEmail, hen, hci]
      rw [hse]
      exact ⟨by rw [hid.1]; exact hc, by simp [deliveriesFor, hid.2.1],
        fun hcon => absurd hcon hkey⟩
    | none =>
      by_cases hv : emailValid toAddr
      · rcases hrl : checkRateLimit st1 cfg.rateLimitPerSecond cnow with ⟨pass, st2⟩
        have hrlc := checkRateLimit_cache st1 cfg.rateLimitPerSecond cnow
        rw [hrl] at hrlc
        dsimp only at hrlc
        have hc2 : cacheLookup st2.idempotencyCache k = some ⟨m, t0⟩ := by
          rw [hrlc.1, hid.1]; exact hc
        have hd2 : deliveriesFor k st2 = deliveriesFor k st := by
          simp [deliveriesFor, hrlc.2, hid.2.1]
        cases pass with
        | false =>
          have hse : sendEmail cfg st toAddr body ckey cnow rand fid =
              (.error .rateLimitError, st2, cfg.latencyMs) := by
            simp [sendEmail, hen, hci, hv, hrl]
          rw [hse]
          exact ⟨hc2, hd2, fun hcon => absurd hcon hkey⟩
        | true =>
          by_cases h3 : 10 * rand < 3 * cfg.errorRate
          · have hse : sendEmail cfg st toAddr body ckey cnow rand fid =
                (.error .timeoutError, st2, cfg.latencyMs) := by
              simp [sendEmail, hen, hci, hv, hrl, h3]
            rw [hse]
            exact ⟨hc2, hd2, fun hcon => absurd hcon hkey⟩
          · by_cases h6 : 10 * rand < 6 * cfg.errorRate
            · have hse : sendEmail cfg st toAddr body ckey cnow rand fid =
                  (.error .rateLimitError, st2, cfg.latencyMs) := by
                simp [sendEmail, hen, hci, hv, hrl, h3, h6]
              rw [hse]
              exact ⟨hc2, hd2, fun hcon => absurd hcon hkey⟩
            · by_cases h10 : rand < cfg.errorRate
              · have hse : sendEmail cfg st toAddr body ckey cnow rand fid =
                    (.error .sendGridError, st2, cfg.latencyMs) := by
                  simp [sendEmail, hen, hci, hv, hrl, h3, h6, h10]
                rw [hse]
                exact ⟨hc2, hd2, fun hcon => absurd hcon hkey⟩
              · have hse : sendEmail cfg st toAddr body ckey cnow rand fid =
                    (.ok fid,
                     ⟨st2.requests, cacheSet st2.idempotencyCache ckey ⟨fid, cnow⟩,
                      st2.deliveries ++ [(ckey, fid)]⟩, cfg.latencyMs) := by
                  simp [sendEmail, hen, hci, hv, hrl, h3, h6, h10, cacheIdempotency]
                rw [hse]
                refine ⟨?_, ?_, fun hcon => absurd hcon hkey⟩
                · dsimp only
                  rw [cacheLookup_set_ne _ _ _ _ hkey]
                  exact hc2
                · dsimp only [deliveriesFor]
                  rw [List.filter_append]
                  have : List.filter (fun d => decide (d.1 = k)) [(ckey, fid)] = [] := by
                    simp [hkey]
                  rw [this, List.append_nil]
                  exact hd2
      · have hse : sendEmail cfg st toAddr body ckey cnow rand fid =
            (.error .invalidEmailError, st1, cfg.latencyMs) := by
          simp [sendEmail, hen, hci, hv]
        rw [hse]
        exact ⟨by rw [hid.1]; exact hc, by simp [deliveriesFor, hid.2.1],
          fun hcon => absurd hcon hkey⟩

theorem exec_depth (a : Act) : ∀ s : TxState, (exec a s).1.depth = s.depth := by
  induction a with
  | nop => intro s; rfl
  | write k v => intro s; rfl
  | fail => intro s; rfl
  | seq a b iha ihb =>
    intro s
    rcases hea : exec a s with ⟨s1, err⟩
    have h1 := iha s
    rw [hea] at h1
    unfold exec
    rw [hea]
    cases err
    · dsimp only
      rw [ihb s1]
      exact h1
    · exact h1
  | tryCatch b hnd ihb ihh =>
    intro s
    rcases hea : exec b s with ⟨s1, err⟩
    have h1 := ihb s
    rw [hea] at h1
    unfold exec
    rw [hea]
    cases err
    · exact h1
    · dsimp only
      rw [ihh s1]
      exact h1
  | tx body ihb =>
    intro s
    unfold exec
    dsimp only
    by_cases h0 : s.depth = 0
    · rw [if_pos h0]
      rcases hea : exec body { s with snap := s.db, depth := 1 } with ⟨s2, err⟩
      have h2 := ihb { s with snap := s.db, depth := 1 }
      rw [hea] at h2
      dsimp only at h2
      cases err
      · dsimp only
        rw [h2, h0]
      · dsimp only
        rw [h2]
        simp only [Nat.sub_self, if_pos]
        omega
    · rw [if_neg h0]
      rcases hea : exec body { s with depth := s.depth + 1 } with ⟨s2, err⟩
      have h2 := ihb { s with depth := s.depth + 1 }
      rw [hea] at h2
      dsimp only at h2
      cases err
      · dsimp only
        rw [h2]
        omega
      · dsimp only
        rw [h2]
        have hne : ¬(s.depth + 1 - 1 = 0) := by omega
        rw [if_neg hne]
        dsimp only
        omega

theorem exec_snap (a : Act) : ∀ s : TxState, 1 ≤ s.depth →
    (exec a s).1.snap = s.snap := by
  induction a with
  | nop => intro s _; rfl
  | write k v => intro s _; rfl
  | fail => intro s _; rfl
  | seq a b iha ihb =>
    intro s hs
    rcases hea : exec a s with ⟨s1, err⟩
    have h1 := iha s hs
    rw [hea] at h1
    have hd1 : s1.depth = s.depth := by
      have := exec_depth a s
      rw [hea] at this
      exact this
    unfold exec
    rw [hea]
    cases err
    · dsimp only
      rw [ihb s1 (hd1 ▸ hs)]
      exact h1
    · exact h1
  | tryCatch b hnd ihb ihh =>
    intro s hs
    rcases hea : exec b s with ⟨s1, err⟩
    have h1 := ihb s hs
    rw [hea] at h1
    have hd1 : s1.depth = s.depth := by
      have := exec_depth b s
      rw [hea] at this
      exact this
    unfold exec
    rw [hea]
    cases err
    · exact h1
    · dsimp only
      rw [ihh s1 (hd1 ▸ hs)]
      exact h1
  | tx body ihb =>
    intro s hs
    have h0 : ¬(s.depth = 0) := by omega
    unfold exec
    dsimp only
    rw [if_neg h0]
    rcases hea : exec body { s with depth := s.depth + 1 } with ⟨s2, err⟩
    have h2 := ihb { s with depth := s.depth + 1 } (by dsimp only; omega)
    rw [hea] at h2
    dsimp only at h2
    have hd2 : s2.depth = s.depth + 1 := by
      have := exec_depth body { s with depth := s.depth + 1 }
      rw [hea] at this
      exact this
    cases err
    · exact h2
    · have hne : s2.depth - 1 ≠ 0 := by omega
      dsimp only
      rw [if_neg hne]
      exact h2

/-! ## Claim theorems -/

/-- C6 counterexample: the claim adds that every external-collaborator
failure falls into exactly one of the two classes, but a
`SalesforceError` (thrown by the CRM collaborator) is classified as
neither transient nor permanent. -/
theorem classifier_salesforce_neither_class :
    isTransientError ApiError.salesforceError = false ∧
    isPermanentError ApiError.salesforceError = false := by
  decide

/-- C6 (amended): `isTransientError` is true exactly for errors named
`RateLimitError` or `TimeoutError`, `isPermanentError` exactly for
`InvalidEmailError`; no error is in both classes, and the generic
collaborator errors (`SendGridError`, `SalesforceError`,
`SentimentAPIError`) fall into neither class. -/
theorem classifier_names_exact (e : ApiError) :
    (isTransientError e = true ↔ (e.name = "RateLimitError" ∨ e.name = "TimeoutError")) ∧
    (isPermanentError e = true ↔ e.name = "InvalidEmailError") ∧
    ¬(isTransientError e = true ∧ isPermanentError e = true) ∧
    ((isTransientError e = false ∧ isPermanentError e = false) ↔
      (e = ApiError.sendGridError ∨ e = ApiError.salesforceError ∨
       e = ApiError.sentimentAPIError)) := by
  cases e <;> decide

/-- C6 witness: the amended characterization applied to a concrete
rate-limit error. -/
theorem classifier_names_exact_witness :
    isTransientError ApiError.rateLimitError = true :=
  (classifier_names_exact ApiError.rateLimitError).1.mpr (Or.inl rfl)

/-- C8 counterexample: with the shipped default configuration, an empty
limiter state, a valid address, and a random draw of 0.04 (40000
millionths: below the 5 percent error rate but above the timeout and
rate-limit slices),
`sendEmail` throws the generic `SendGridError` (the
`SendGrid internal error` branch) — an error kind outside the claimed
set of RateLimit, InvalidAddress and Timeout. -/
theorem sendEmail_generic_error_cex :
    (sendEmail sendgridDefaultConfig ⟨[], [], []⟩ "a@b.c" "hello" "key-1" 0
      40000 "msg-1").1 = .error ApiError.sendGridError := by
  rfl

/-- C8 (amended): every `sendEmail` call either returns a message id or
fails with one of exactly four error kinds — RateLimit, InvalidAddress,
Timeout, or the generic SendGridError (the disabled-API and
internal-error branches); in particular it never throws a Salesforce or
Sentiment error. -/
theorem sendEmail_error_kinds (cfg : SendgridConfig) (st : LimiterState)
    (toAddr body key : String) (now : Int) (rand : Int) (freshId : String) :
    (∃ m, (sendEmail cfg st toAddr body key now rand freshId).1 = .ok m) ∨
    (sendEmail cfg st toAddr body key now rand freshId).1 = .error ApiError.sendGridError ∨
    (sendEmail cfg st toAddr body key now rand freshId).1 = .error ApiError.rateLimitError ∨
    (sendEmail cfg st toAddr body key now rand freshId).1 = .error ApiError.invalidEmailError ∨
    (sendEmail cfg st toAddr body key now rand freshId).1 = .error ApiError.timeoutError := by
  unfold sendEmail
  repeat' split
  all_goals simp

/-- C10: a cached idempotency key short-circuits `sendEmail` before
address validation, rate limiting and simulated-error injection: with the
API enabled and a cache entry still inside the 24-hour window, the call
returns the cached message id after the 50 ms cached-path delay, leaving
the limiter state (and so the delivery log) unchanged — for every
address, body, random draw and limiter occupancy. -/
theorem sendEmail_cache_short_circuit (cfg : SendgridConfig) (st : LimiterState)
    (toAddr body k : String) (now : Int) (rand : Int) (freshId : String)
    (m : String) (t0 : Int)
    (hen : cfg.enabled = true)
    (hc : cacheLookup st.idempotencyCache k = some ⟨m, t0⟩)
    (hw : now - t0 < idempotencyWindowMs) :
    sendEmail cfg st toAddr body k now rand freshId = (.ok m, st, 50) :=
  sendEmail_cached_hit cfg st toAddr body k now rand freshId m t0 hen hc hw

/-- C10 witness: a concrete cached call with an address that would fail
validation returns the cached id and changes nothing. -/
theorem sendEmail_cache_short_circuit_witness :
    sendEmail sendgridDefaultConfig ⟨[], [("k1", ⟨"m1", 0⟩)], []⟩ "bad" "b" "k1"
      100 0 "f" = (.ok "m1", ⟨[], [("k1", ⟨"m1", 0⟩)], []⟩, 50) :=
  sendEmail_cache_short_circuit sendgridDefaultConfig ⟨[], [("k1", ⟨"m1", 0⟩)], []⟩
    "bad" "b" "k1" 100 0 "f" "m1" 0 rfl (by decide) (by decide)

/-- C7: once a key k is cached with messageId m at time t0 (as a
successful send leaves it), then along any sequence of further
`sendEmail` calls all made inside the 24-hour validity window (with the
API enabled, as it is throughout the repository), every call that uses
key k returns the same m, the deliveries recorded for k do not grow (no
second externally visible delivery for k), and the cache entry for k
survives unchanged. -/
theorem sendEmail_idempotency_window (cfg : SendgridConfig) (calls : List Call)
    (s0 : LimiterState) (k m : String) (t0 : Int)
    (hen : cfg.enabled = true)
    (hc : cacheLookup s0.idempotencyCache k = some ⟨m, t0⟩)
    (hcalls : ∀ c ∈ calls, c.now - t0 < idempotencyWindowMs) :
    (∀ p ∈ calls.zip (runCalls cfg calls s0).1, p.1.key = k → p.2 = Except.ok m) ∧
    deliveriesFor k (runCalls cfg calls s0).2 = deliveriesFor k s0 ∧
    cacheLookup (runCalls cfg calls s0).2.idempotencyCache k = some ⟨m, t0⟩ := by
  induction calls generalizing s0 with
  | nil => exact ⟨by simp, rfl, hc⟩
  | cons c rest ih =>
    have hw := hcalls c (by simp)
    have hp := sendEmail_preserves_key cfg s0 c.toAddr c.body c.key c.now c.rand
      c.freshId k m t0 hen hc hw
    have ih1 := ih (sendEmail cfg s0 c.toAddr c.body c.key c.now c.rand c.freshId).2.1
      hp.1 (fun c' h => hcalls c' (List.mem_cons_of_mem c h))
    refine ⟨?_, ?_, ?_⟩
    · intro p hpmem hpk
      simp only [runCalls, List.zip_cons_cons, List.mem_cons] at hpmem
      rcases hpmem with hhead | htail
      · rw [hhead] at hpk ⊢
        exact hp.2.2 hpk
      · exact ih1.1 p htail hpk
    · simp only [runCalls]
      rw [ih1.2.1, hp.2.1]
    · simp only [runCalls]
      exact ih1.2.2

/-- C5: in every reachable state of the job_steps table there is at most
one row per (job_id, step_name) pair; `UNIQUE_VIOLATION` is the code the
store error carries; and an insert that would duplicate a present pair
fails with that error, leaving the table (and so the existing row)
unchanged. -/
theorem jobSteps_unique_per_pair (t : JobStepsTable) (h : ReachableSteps t) :
    uniquePerPair t ∧
    DbError.code DbError.uniqueViolation = "UNIQUE_VIOLATION" ∧
    ∀ jobId step status outputData now,
      hasPair t jobId step = true →
      insertJobStep t jobId step status outputData now = (.error .uniqueViolation, t) := by
  refine ⟨?_, rfl, ?_⟩
  · induction h with
    | empty => exact List.Pairwise.nil
    | insert t jobId step status outputData now _ ih =>
      unfold insertJobStep
      by_cases hp : hasPair t jobId step
      · simpa [hp] using ih
      · simp only [hp, if_false, Bool.false_eq_true]
        unfold uniquePerPair at ih ⊢
        dsimp only
        rw [List.pairwise_append]
        refine ⟨ih, List.pairwise_singleton _ _, ?_⟩
        intro a ha b hb
        simp only [List.mem_singleton] at hb
        subst hb
        intro hcon
        apply hp
        unfold hasPair
        rw [List.any_eq_true]
        exact ⟨a, ha, by simp [hcon.1, hcon.2]⟩
    | delete t rowId _ ih =>
      exact List.Pairwise.sublist (List.filter_sublist _) ih
    | reset t _ _ =>
      exact List.Pairwise.nil
  · intro jobId step status outputData now hp
    unfold insertJobStep
    simp [hp]

/-- C5 witness: with one (job 1, SendEmail) row present, a second insert
for the same pair fails with UNIQUE_VIOLATION and leaves the table as it
was. -/
theorem jobSteps_unique_per_pair_witness :
    insertJobStep
        (insertJobStep JobStepsTable.empty 1 JobStepName.sendEmail
          JobStepStatus.completed none 0).2
        1 JobStepName.sendEmail JobStepStatus.completed none 5 =
      (.error .uniqueViolation,
       (insertJobStep JobStepsTable.empty 1 JobStepName.sendEmail
          JobStepStatus.completed none 0).2) :=
  (jobSteps_unique_per_pair _
      (ReachableSteps.insert JobStepsTable.empty 1 JobStepName.sendEmail
        JobStepStatus.completed none 0 ReachableSteps.empty)).2.2
    1 JobStepName.sendEmail JobStepStatus.completed none 5 (by decide)

/-- C9 counterexample: in `nestedCatchProg` the inner transaction's
callback writes B and then throws; the error is re-raised to the
enclosing callback, which catches it, and the outer transaction commits.
The write B performed inside the (inner) transaction whose callback
threw is still visible after all transactions exit, refuting the claimed
rollback on every error path for nested transactions. -/
theorem transaction_nested_commit_cex :
    (exec nestedCatchProg txInit).2 = false ∧
    (exec nestedCatchProg txInit).1.depth = 0 ∧
    dbLookup (exec nestedCatchProg txInit).1.db "B" = some 2 := by
  decide

/-- C9 (amended): for a top-level transaction (depth 0) the wrapper does
guarantee commit-or-rollback: the callback's error indication is
re-raised faithfully; when the callback throws, the database is restored
to its pre-transaction contents; when it returns normally, the
callback's writes are committed and the depth returns to 0.  For a
nested `transaction(...)` call, commit and rollback are deferred to the
outermost transaction, so a nested callback's error that is caught by an
enclosing callback does not undo the nested writes. -/
theorem transaction_toplevel_commit_or_rollback (body : Act) (s : TxState)
    (h0 : s.depth = 0) :
    (exec (Act.tx body) s).2 = (exec body (txEnter s)).2 ∧
    ((exec body (txEnter s)).2 = true →
      (exec (Act.tx body) s).1.db = s.db ∧ (exec (Act.tx body) s).1.depth = 0) ∧
    ((exec body (txEnter s)).2 = false →
      (exec (Act.tx body) s).1.db = (exec body (txEnter s)).1.db ∧
      (exec (Act.tx body) s).1.depth = 0) := by
  have htx : exec (Act.tx body) s =
      (match exec body (txEnter s) with
       | (s2, false) => ({ s2 with depth := s2.depth - 1 }, false)
       | (s2, true) =>
         if s2.depth - 1 = 0 then
           ({ db := s2.snap, depth := 0, snap := s2.snap }, true)
         else ({ s2 with depth := s2.depth - 1 }, true)) := by
    conv_lhs => unfold exec
    dsimp only
    rw [if_pos h0]
    rfl
  rcases heb : exec body (txEnter s) with ⟨s2, err⟩
  have hd : s2.depth = 1 := by
    have hh := exec_depth body (txEnter s)
    rw [heb] at hh
    exact hh
  have hsn : s2.snap = s.db := by
    have hh := exec_snap body (txEnter s) (by simp [txEnter])
    rw [heb] at hh
    exact hh
  rw [htx, heb]
  cases err
  · dsimp only
    refine ⟨rfl, fun hcon => by simp at hcon, fun _ => ⟨rfl, ?_⟩⟩
    omega
  · dsimp only
    have h10 : s2.depth - 1 = 0 := by omega
    rw [if_pos h10]
    dsimp only
    exact ⟨rfl, fun _ => ⟨hsn, rfl⟩, fun hcon => by simp at hcon⟩

/-- C9 witness: a top-level transaction whose callback writes A and then
throws leaves the database unchanged and returns the depth to 0. -/
theorem transaction_toplevel_commit_or_rollback_witness :
    (exec (Act.tx (Act.seq (Act.write "A" 1) Act.fail)) txInit).1.db = txInit.db ∧
    (exec (Act.tx (Act.seq (Act.write "A" 1) Act.fail)) txInit).1.depth = 0 :=
  (transaction_toplevel_commit_or_rollback (Act.seq (Act.write "A" 1) Act.fail)
    txInit rfl).2.1 (by decide)

/-- C7 witness: with key k1 cached as m1 at time 0, a run of two calls
inside the window — one reusing k1, one with a different key that
performs a real send — leaves the deliveries for k1 and the cache entry
for k1 unchanged. -/
theorem sendEmail_idempotency_window_witness :
    deliveriesFor "k1" (runCalls sendgridDefaultConfig
      [⟨"a@b.c", "hi", "k1", 100, 0, "f1"⟩, ⟨"x@y.z", "yo", "k2", 200, 999999, "f2"⟩]
      ⟨[], [("k1", ⟨"m1", 0⟩)], []⟩).2 =
      deliveriesFor "k1" ⟨[], [("k1", ⟨"m1", 0⟩)], []⟩ ∧
    cacheLookup (runCalls sendgridDefaultConfig
      [⟨"a@b.c", "hi", "k1", 100, 0, "f1"⟩, ⟨"x@y.z", "yo", "k2", 200, 999999, "f2"⟩]
      ⟨[], [("k1", ⟨"m1", 0⟩)], []⟩).2.idempotencyCache "k1" = some ⟨"m1", 0⟩ :=
  (sendEmail_idempotency_window sendgridDefaultConfig
    [⟨"a@b.c", "hi", "k1", 100, 0, "f1"⟩, ⟨"x@y.z", "yo", "k2", 200, 999999, "f2"⟩]
    ⟨[], [("k1", ⟨"m1", 0⟩)], []⟩ "k1" "m1" 0 rfl (by decide) (by decide)).2

theorem mkJobs_length (campaignId : Nat) (now : Int) :
    ∀ (nid : Nat) (emails : List String),
      (mkJobs campaignId now nid emails).length = emails.length := by
  intro nid emails
  induction emails generalizing nid with
  | nil => rfl
  | cons e rest ih => simp [mkJobs, ih]

theorem mkJobs_fields (campaignId : Nat) (now : Int) :
    ∀ (nid : Nat) (emails : List String), ∀ j ∈ mkJobs campaignId now nid emails,
      j.status = JobStatus.pending ∧ j.currentStep = JobStepName.sendEmail ∧
      j.retryCount = 0 ∧ j.campaignId = campaignId := by
  intro nid emails
  induction emails generalizing nid with
  | nil => intro j hj; simp [mkJobs] at hj
  | cons e rest ih =>
    intro j hj
    simp only [mkJobs, List.mem_cons] at hj
    rcases hj with h | h
    · subst h; exact ⟨rfl, rfl, rfl, rfl⟩
    · exact ih (nid + 1) j h

/-- C3: for every campaign and input list, `createCampaignJobs` returns
the number of input addresses and appends exactly that many new job
rows, each Pending at SendEmail with retryCount 0 for the given
campaign; duplicate addresses each yield their own row (one row per list
element); the empty list returns 0 and leaves the store untouched. -/
theorem createCampaignJobs_creates_pending_rows (campaignId : Nat)
    (emails : List String) (now : Int) (s : Store) :
    (createCampaignJobs campaignId emails now s).1 = emails.length ∧
    (createCampaignJobs campaignId emails now s).2.jobs.length =
      s.jobs.length + emails.length ∧
    (∀ j ∈ (createCampaignJobs campaignId emails now s).2.jobs.drop s.jobs.length,
      j.status = JobStatus.pending ∧ j.currentStep = JobStepName.sendEmail ∧
      j.retryCount = 0 ∧ j.campaignId = campaignId) ∧
    (emails = [] → (createCampaignJobs campaignId emails now s).2 = s) := by
  by_cases he : emails.isEmpty
  · have he' : emails = [] := List.isEmpty_iff.mp he
    subst he'
    refine ⟨rfl, rfl, ?_, fun _ => rfl⟩
    intro j hj
    rw [show (createCampaignJobs campaignId [] now s).2 = s from rfl,
      List.drop_length] at hj
    cases hj
  · have he' : ¬(emails = []) := fun hcon => he (by rw [hcon]; rfl)
    have hcc : createCampaignJobs campaignId emails now s =
        (emails.length,
         { s with jobs := s.jobs ++ mkJobs campaignId now s.nextJobId emails,
                  nextJobId := s.nextJobId + emails.length }) := by
      unfold createCampaignJobs
      rw [if_neg he]
    rw [hcc]
    refine ⟨rfl, ?_, ?_, fun hcon => absurd hcon he'⟩
    · dsimp only
      rw [List.length_append, mkJobs_length]
    · dsimp only
      rw [List.drop_left]
      intro j hj
      exact mkJobs_fields campaignId now s.nextJobId emails j hj

/-- C3 witness: two copies of the same address yield two rows, and the
first appended row is Pending at SendEmail with retryCount 0. -/
theorem createCampaignJobs_creates_pending_rows_witness :
    (createCampaignJobs 7 ["a@x.com", "a@x.com"] 0 ⟨[], [], 1, 1⟩).1 = 2 ∧
    (createCampaignJobs 7 ["a@x.com", "a@x.com"] 0 ⟨[], [], 1, 1⟩).2.jobs.length = 2 ∧
    (mkJob 7 "a@x.com" 1 0).status = JobStatus.pending ∧
    (mkJob 7 "a@x.com" 1 0).currentStep = JobStepName.sendEmail ∧
    (mkJob 7 "a@x.com" 1 0).retryCount = 0 :=
  ⟨(createCampaignJobs_creates_pending_rows 7 ["a@x.com", "a@x.com"] 0 ⟨[], [], 1, 1⟩).1,
   (createCampaignJobs_creates_pending_rows 7 ["a@x.com", "a@x.com"] 0 ⟨[], [], 1, 1⟩).2.1,
   ((createCampaignJobs_creates_pending_rows 7 ["a@x.com", "a@x.com"] 0
       ⟨[], [], 1, 1⟩).2.2.1 (mkJob 7 "a@x.com" 1 0) (by decide)).1,
   ((createCampaignJobs_creates_pending_rows 7 ["a@x.com", "a@x.com"] 0
       ⟨[], [], 1, 1⟩).2.2.1 (mkJob 7 "a@x.com" 1 0) (by decide)).2.1,
   ((createCampaignJobs_creates_pending_rows 7 ["a@x.com", "a@x.com"] 0
       ⟨[], [], 1, 1⟩).2.2.1 (mkJob 7 "a@x.com" 1 0) (by decide)).2.2.1⟩

/-- C4: stall recovery is the conditional per-row update `recoverOne`: a
job whose status is Failed or Completed is never modified; a job not
matching the staleness predicate (Processing with heartbeat — or, in its
absence, start time — older than the timeout) is never modified; and a
matching job is reset to Pending with `workerId`, `startedAt` and
`lastHeartbeat` cleared. -/
theorem recoverStalledJobs_resets_only_stalled (timeoutSeconds now : Int) (s : Store) :
    (recoverStalledJobs timeoutSeconds now s).2.jobs =
      s.jobs.map (recoverOne timeoutSeconds now) ∧
    (recoverStalledJobs timeoutSeconds now s).1 =
      s.jobs.countP (isStalled timeoutSeconds now) ∧
    ∀ j : Job,
      ((j.status = JobStatus.failed ∨ j.status = JobStatus.completed) →
        recoverOne timeoutSeconds now j = j) ∧
      (isStalled timeoutSeconds now j = false → recoverOne timeoutSeconds now j = j) ∧
      (isStalled timeoutSeconds now j = true →
        recoverOne timeoutSeconds now j = resetJob j ∧
        (recoverOne timeoutSeconds now j).status = JobStatus.pending ∧
        (recoverOne timeoutSeconds now j).workerId = none ∧
        (recoverOne timeoutSeconds now j).startedAt = none ∧
        (recoverOne timeoutSeconds now j).lastHeartbeat = none) := by
  refine ⟨rfl, rfl, fun j => ⟨?_, ?_, ?_⟩⟩
  · intro hst
    have hns : isStalled timeoutSeconds now j = false := by
      unfold isStalled
      rcases hst with h | h <;> simp [h]
    simp [recoverOne, hns]
  · intro h
    simp [recoverOne, h]
  · intro h
    refine ⟨by simp [recoverOne, h], ?_, ?_, ?_, ?_⟩ <;>
      simp [recoverOne, h, resetJob]

/-- C4 witness: a concrete stalled Processing job (heartbeat at 0, now
well past the 300-second timeout) is reset; its status becomes Pending
and its worker is cleared. -/
theorem recoverStalledJobs_resets_only_stalled_witness :
    (recoverOne 300 1000000
        ⟨1, 1, "c@x.com", JobStepName.sendEmail, JobStatus.processing, some "w1",
         0, 0, some 0, none, none, none, some 0⟩).status = JobStatus.pending ∧
    (recoverOne 300 1000000
        ⟨1, 1, "c@x.com", JobStepName.sendEmail, JobStatus.processing, some "w1",
         0, 0, some 0, none, none, none, some 0⟩).workerId = none := by
  have h := ((recoverStalledJobs_resets_only_stalled 300 1000000 ⟨[], [], 1, 1⟩).2.2
    ⟨1, 1, "c@x.com", JobStepName.sendEmail, JobStatus.processing, some "w1",
     0, 0, some 0, none, none, none, some 0⟩).2.2 (by decide)
  exact ⟨h.2.1, h.2.2.1⟩

theorem find_update_list (l : List Job) (jobId : Nat) (f : Job → Job)
    (hid : ∀ x, (f x).id = x.id) :
    (l.map (fun x => if x.id = jobId then f x else x)).find? (fun j => j.id = jobId) =
      (l.find? (fun j => j.id = jobId)).map f := by
  induction l with
  | nil => rfl
  | cons x rest ih =>
    by_cases hx : x.id = jobId
    · simp [List.find?_cons, hx, hid x]
    · simp [List.find?_cons, hx, ih]

theorem findJob_updateJob (s : Store) (jobId : Nat) (f : Job → Job)
    (hid : ∀ x, (f x).id = x.id) :
    findJob (updateJob s jobId f) jobId = (findJob s jobId).map f := by
  unfold findJob updateJob
  exact find_update_list s.jobs jobId f hid

theorem ledgerCount_insert (s : Store) (jobId : Nat) (step : JobStepName)
    (now : Int) (jid2 : Nat) (step2 : JobStepName) :
    ledgerCount (insertLedger s jobId step now) jid2 step2 =
      ledgerCount s jid2 step2 + (if jobId = jid2 ∧ step = step2 then 1 else 0) := by
  unfold ledgerCount insertLedger
  dsimp only
  rw [List.countP_append]
  congr 1
  by_cases h : jobId = jid2 ∧ step = step2 <;> simp [List.countP_cons, h]

theorem nextStep_ne (st n : JobStepName) (h : nextStep st = some n) : n ≠ st := by
  cases st <;> simp [nextStep] at h <;> subst h <;> decide

theorem advanceJob_id (now : Int) (j : Job) : (advanceJob now j).id = j.id := by
  unfold advanceJob
  rcases h : nextStep j.currentStep with _ | n <;> rfl

theorem advanceJob_cases (now : Int) (j : Job) :
    (∃ n, nextStep j.currentStep = some n ∧
      advanceJob now j =
        { j with status := JobStatus.pending, currentStep := n, workerId := none }) ∨
    (nextStep j.currentStep = none ∧
      advanceJob now j =
        { j with status := JobStatus.completed, completedAt := some now,
                 workerId := none }) := by
  rcases h : nextStep j.currentStep with _ | n
  · right
    exact ⟨rfl, by unfold advanceJob; rw [h]⟩
  · left
    exact ⟨n, rfl, by unfold advanceJob; rw [h]⟩

theorem processJob_skips_other_step (maxRetries : Nat) (now2 : Int) (s2 : Store)
    (jobId : Nat) (j2 : Job) (step : JobStepName) (o : StepOutcome)
    (hfind2 : findJob s2 jobId = some j2)
    (hdisj : j2.status = JobStatus.completed ∨ j2.status = JobStatus.failed ∨
      ¬(j2.currentStep = step)) :
    ledgerCount (processJob maxRetries now2 s2 jobId o).1 jobId step =
      ledgerCount s2 jobId step ∧
    (jobId, step) ∉ (processJob maxRetries now2 s2 jobId o).2 := by
  unfold processJob
  rw [hfind2]
  dsimp only
  by_cases hterm : j2.status = JobStatus.completed ∨ j2.status = JobStatus.failed
  · rw [if_pos hterm]
    exact ⟨rfl, by simp⟩
  · rw [if_neg hterm]
    have hstep : ¬(j2.currentStep = step) := by tauto
    have hpair : ¬((jobId, step) = (jobId, j2.currentStep)) := by
      intro hcon
      exact hstep (Prod.mk.injEq .. ▸ hcon).2.symm
    by_cases hlc : ledgerCompleted s2 jobId j2.currentStep = true
    · simp only [hlc, if_true]
      exact ⟨rfl, by simp⟩
    · simp only [Bool.not_eq_true] at hlc
      simp only [hlc, Bool.false_eq_true, if_false]
      cases o with
      | success =>
        dsimp only
        refine ⟨?_, by simp [hpair]⟩
        have : ledgerCount (updateJob (insertLedger s2 jobId j2.currentStep now2)
            jobId (advanceJob now2)) jobId step =
            ledgerCount (insertLedger s2 jobId j2.currentStep now2) jobId step := rfl
        rw [this, ledgerCount_insert]
        simp [hstep]
      | transientFailure =>
        by_cases hr : j2.retryCount < maxRetries
        · simp only [hr, if_pos]
          exact ⟨rfl, by simp [hpair]⟩
        · simp only [hr, if_neg, if_false]
          exact ⟨rfl, by simp [hpair]⟩
      | permanentFailure =>
        exact ⟨rfl, by simp [hpair]⟩

/-- C2: after a successful `processJob` execution of a job's current
step, an immediately repeated `processJob` call (with any outcome the
collaborator would produce) never creates a second ledger row for that
(job, step) pair and never invokes the collaborator again for that step:
the (job, step) ledger keeps at most one row and the step does not
reappear in the second call's invocation list.  The hypotheses say the
job is present and that the store respects the ledger invariant (rows
for the pair are completed, at most one row per pair). -/
theorem processJob_idempotent_second_call (maxRetries : Nat) (now1 now2 : Int)
    (s : Store) (jobId : Nat) (j : Job) (o : StepOutcome)
    (hfind : findJob s jobId = some j)
    (hrows : ∀ r ∈ s.steps, r.jobId = jobId → r.stepName = j.currentStep →
      r.status = JobStepStatus.completed)
    (hcount : ledgerCount s jobId j.currentStep ≤ 1) :
    ledgerCount (processJob maxRetries now2
        (processJob maxRetries now1 s jobId StepOutcome.success).1 jobId o).1
      jobId j.currentStep ≤ 1 ∧
    (jobId, j.currentStep) ∉
      (processJob maxRetries now2
        (processJob maxRetries now1 s jobId StepOutcome.success).1 jobId o).2 := by
  have hdisj : ∀ s1 : Store, findJob s1 jobId = some (advanceJob now1 j) →
      ledgerCount (processJob maxRetries now2 s1 jobId o).1 jobId j.currentStep =
        ledgerCount s1 jobId j.currentStep ∧
      (jobId, j.currentStep) ∉ (processJob maxRetries now2 s1 jobId o).2 := by
    intro s1 hf1
    apply processJob_skips_other_step maxRetries now2 s1 jobId (advanceJob now1 j)
      j.currentStep o hf1
    rcases advanceJob_cases now1 j with ⟨n, hn, heq⟩ | ⟨_, heq⟩
    · right; right
      rw [heq]
      exact nextStep_ne j.currentStep n hn
    · left
      rw [heq]
  by_cases hterm : j.status = JobStatus.completed ∨ j.status = JobStatus.failed
  · have h1 : processJob maxRetries now1 s jobId StepOutcome.success = (s, []) := by
      unfold processJob
      rw [hfind]
      dsimp only
      rw [if_pos hterm]
    have h2 : processJob maxRetries now2 s jobId o = (s, []) := by
      unfold processJob
      rw [hfind]
      dsimp only
      rw [if_pos hterm]
    rw [h1]
    dsimp only
    rw [h2]
    exact ⟨hcount, by simp⟩
  · by_cases hlc : ledgerCompleted s jobId j.currentStep = true
    · have h1 : processJob maxRetries now1 s jobId StepOutcome.success =
          (updateJob s jobId (advanceJob now1), []) := by
        unfold processJob
        rw [hfind]
        dsimp only
        rw [if_neg hterm]
        simp only [hlc, if_true]
      have hf1 : findJob (updateJob s jobId (advanceJob now1)) jobId =
          some (advanceJob now1 j) := by
        rw [findJob_updateJob s jobId (advanceJob now1) (advanceJob_id now1), hfind]
        rfl
      have hsec := hdisj (updateJob s jobId (advanceJob now1)) hf1
      rw [h1]
      dsimp only
      refine ⟨?_, hsec.2⟩
      rw [hsec.1]
      exact hcount
    · have hcnt0 : ledgerCount s jobId j.currentStep = 0 := by
        by_contra hne
        have hpos : 0 < ledgerCount s jobId j.currentStep := Nat.pos_of_ne_zero hne
        unfold ledgerCount at hpos
        obtain ⟨r, hr, hpred⟩ := List.countP_pos_iff.mp hpos
        simp only [decide_eq_true_eq] at hpred
        apply hlc
        unfold ledgerCompleted
        rw [List.any_eq_true]
        exact ⟨r, hr, by
          simp [hpred.1, hpred.2, hrows r hr hpred.1 hpred.2]⟩
      have h1 : processJob maxRetries now1 s jobId StepOutcome.success =
          (updateJob (insertLedger s jobId j.currentStep now1) jobId (advanceJob now1),
           [(jobId, j.currentStep)]) := by
        unfold processJob
        rw [hfind]
        dsimp only
        rw [if_neg hterm]
        simp only [Bool.not_eq_true] at hlc
        simp only [hlc, Bool.false_eq_true, if_false]
      have hcnt1 : ledgerCount (updateJob (insertLedger s jobId j.currentStep now1)
          jobId (advanceJob now1)) jobId j.currentStep = 1 := by
        have hu : ledgerCount (updateJob (insertLedger s jobId j.currentStep now1)
            jobId (advanceJob now1)) jobId j.currentStep =
            ledgerCount (insertLedger s jobId j.currentStep now1) jobId j.currentStep :=
          rfl
        rw [hu, ledgerCount_insert, hcnt0]
        simp
      have hf1 : findJob (updateJob (insertLedger s jobId j.currentStep now1) jobId
          (advanceJob now1)) jobId = some (advanceJob now1 j) := by
        rw [findJob_updateJob _ jobId (advanceJob now1) (advanceJob_id now1)]
        have hfi : findJob (insertLedger s jobId j.currentStep now1) jobId =
            findJob s jobId := rfl
        rw [hfi, hfind]
        rfl
      have hsec := hdisj _ hf1
      rw [h1]
      dsimp only
      refine ⟨?_, hsec.2⟩
      rw [hsec.1, hcnt1]

/-- C2 witness: a fresh Pending job at SendEmail, processed successfully
and then processed again: the (job, SendEmail) ledger keeps one row and
the second call does not invoke the SendEmail collaborator. -/
theorem processJob_idempotent_second_call_witness :
    ledgerCount (processJob 3 10
        (processJob 3 5 ⟨[mkJob 1 "a@x.com" 1 0], [], 2, 1⟩ 1 StepOutcome.success).1
        1 StepOutcome.success).1 1 JobStepName.sendEmail ≤ 1 ∧
    (1, JobStepName.sendEmail) ∉
      (processJob 3 10
        (processJob 3 5 ⟨[mkJob 1 "a@x.com" 1 0], [], 2, 1⟩ 1 StepOutcome.success).1
        1 StepOutcome.success).2 :=
  processJob_idempotent_second_call 3 5 10 ⟨[mkJob 1 "a@x.com" 1 0], [], 2, 1⟩ 1
    (mkJob 1 "a@x.com" 1 0) StepOutcome.success (by decide)
    (by intro r hr; simp at hr) (by decide)

theorem pickMin_mem : ∀ (l : List Job) (j : Job), pickMin l = some j → j ∈ l := by
  intro l
  induction l with
  | nil => intro j h; cases h
  | cons x rest ih =>
    intro j h
    unfold pickMin at h
    rcases hp : pickMin rest with _ | b <;> rw [hp] at h
    · rw [Option.some.injEq] at h
      rw [← h]
      exact List.mem_cons_self x rest
    · dsimp only at h
      by_cases hb : betterCandidate b x = true
      · rw [if_pos hb, Option.some.injEq] at h
        rw [← h]
        exact List.mem_cons_of_mem x (ih b hp)
      · rw [if_neg hb, Option.some.injEq] at h
        rw [← h]
        exact List.mem_cons_self x rest

theorem pickMin_eq_none (l : List Job) (h : pickMin l = none) : l = [] := by
  cases l with
  | nil => rfl
  | cons x rest =>
    exfalso
    unfold pickMin at h
    rcases hp : pickMin rest with _ | b <;> rw [hp] at h
    · cases h
    · dsimp only at h
      by_cases hb : betterCandidate b x = true
      · rw [if_pos hb] at h; cases h
      · rw [if_neg hb] at h; cases h

theorem claimNextJob_none (w : String) (now : Int) (s : Store)
    (h : (claimNextJob w now s).1 = none) :
    s.jobs.countP (eligibleb now) = 0 ∧ (claimNextJob w now s).2 = s := by
  rcases hp : pickMin (s.jobs.filter (eligibleb now)) with _ | j
  · have he : claimNextJob w now s = (none, s) := by
      unfold claimNextJob
      rw [hp]
    rw [he]
    refine ⟨?_, rfl⟩
    rw [List.countP_eq_length_filter, pickMin_eq_none _ hp]
    rfl
  · have he : (claimNextJob w now s).1 = some (claimedJob w now j) := by
      unfold claimNextJob
      rw [hp]
    rw [he] at h
    cases h

theorem claimNextJob_some (w : String) (now : Int) (s : Store) (j2 : Job)
    (h : (claimNextJob w now s).1 = some j2) :
    ∃ j, j ∈ s.jobs ∧ eligibleb now j = true ∧ j2.id = j.id ∧
      j2.status = JobStatus.processing ∧
      (claimNextJob w now s).2.jobs =
        s.jobs.map (fun x => if x.id = j.id then j2 else x) := by
  rcases hp : pickMin (s.jobs.filter (eligibleb now)) with _ | j
  · have he : (claimNextJob w now s).1 = none := by
      unfold claimNextJob
      rw [hp]
    rw [he] at h
    cases h
  · have he : claimNextJob w now s =
        (some (claimedJob w now j),
         { s with jobs := s.jobs.map (fun x =>
             if x.id = j.id then claimedJob w now j else x) }) := by
      unfold claimNextJob
      rw [hp]
    rw [he] at h
    rw [Option.some.injEq] at h
    have hmemf := pickMin_mem _ _ hp
    have hmem := (List.mem_filter.mp hmemf).1
    have helig := (List.mem_filter.mp hmemf).2
    subst h
    rw [he]
    exact ⟨j, hmem, helig, rfl, rfl, rfl⟩

theorem countP_update_list (l : List Job) (p : Job → Bool) (j j2 : Job)
    (hnd : (l.map Job.id).Nodup)
    (hmem : j ∈ l) (hj : p j = true) (hj2 : p j2 = false) :
    (l.map (fun x => if x.id = j.id then j2 else x)).countP p + 1 = l.countP p := by
  induction l with
  | nil => cases hmem
  | cons x rest ih =>
    rw [List.map_cons] at hnd
    have hnc := List.nodup_cons.mp hnd
    by_cases hx : x.id = j.id
    · have hjx : j = x := by
        rcases List.mem_cons.mp hmem with h | h
        · exact h
        · exfalso
          apply hnc.1
          rw [hx]
          exact List.mem_map_of_mem Job.id h
      have hrest : rest.map (fun y => if y.id = j.id then j2 else y) = rest := by
        have : ∀ y ∈ rest, (if y.id = j.id then j2 else y) = y := by
          intro y hy
          rw [if_neg]
          intro hcon
          apply hnc.1
          rw [hx, ← hcon]
          exact List.mem_map_of_mem Job.id hy
        rw [List.map_congr_left this]
        simp
      rw [List.map_cons, if_pos hx, hrest, List.countP_cons, List.countP_cons]
      rw [← hjx] at *
      simp [hj, hj2]
    · have hmem' : j ∈ rest := by
        rcases List.mem_cons.mp hmem with h | h
        · exfalso; apply hx; rw [← h]
        · exact h
      have hih := ih hnc.2 hmem'
      rw [List.map_cons, if_neg hx, List.countP_cons, List.countP_cons]
      omega

theorem elig_after_claim (l : List Job) (p : Job → Bool) (j j2 : Job)
    (hj2 : p j2 = false) :
    ∀ x ∈ l.map (fun x => if x.id = j.id then j2 else x), p x = true →
      ¬(x.id = j.id) := by
  intro x hx hpx
  rcases List.mem_map.mp hx with ⟨y, _, hfy⟩
  by_cases hyid : y.id = j.id
  · rw [if_pos hyid] at hfy
    rw [← hfy] at hpx
    rw [hj2] at hpx
    cases hpx
  · rw [if_neg hyid] at hfy
    rw [← hfy]
    exact hyid

theorem ids_after_claim (l : List Job) (j j2 : Job) (hid : j2.id = j.id) :
    (l.map (fun x => if x.id = j.id then j2 else x)).map Job.id = l.map Job.id := by
  rw [List.map_map]
  apply List.map_congr_left
  intro x _
  by_cases hx : x.id = j.id <;> simp [hx, hid]

theorem runClaims_returns (now : Int) : ∀ (ws : List String) (s : Store) (jr : Job),
    some jr ∈ (runClaims now ws s).1 →
    ∃ x ∈ s.jobs, eligibleb now x = true ∧ x.id = jr.id := by
  intro ws
  induction ws with
  | nil => intro s jr h; simp [runClaims] at h
  | cons w rest ih =>
    intro s jr h
    simp only [runClaims, List.mem_cons] at h
    rcases h with hhead | htail
    · obtain ⟨j, hmem, helig, hid, _, _⟩ := claimNextJob_some w now s jr hhead.symm
      exact ⟨j, hmem, helig, hid.symm⟩
    · rcases hcl : (claimNextJob w now s).1 with _ | j2
      · have h0 := claimNextJob_none w now s hcl
        rw [h0.2] at htail
        exact ih s jr htail
      · obtain ⟨j, hmem, helig, hid, hproc, hjobs⟩ := claimNextJob_some w now s j2 hcl
        obtain ⟨x, hxmem, hxelig, hxid⟩ := ih (claimNextJob w now s).2 jr htail
        rw [hjobs] at hxmem
        rcases List.mem_map.mp hxmem with ⟨y, hy, hfy⟩
        by_cases hyid : y.id = j.id
        · rw [if_pos hyid] at hfy
          rw [← hfy] at hxelig
          rw [show eligibleb now j2 = false by simp [eligibleb, hproc]] at hxelig
          cases hxelig
        · rw [if_neg hyid] at hfy
          rw [← hfy] at hxelig hxid
          exact ⟨y, hy, hxelig, hxid⟩

theorem runClaims_count (now : Int) : ∀ (ws : List String) (s : Store),
    (s.jobs.map Job.id).Nodup →
    ((runClaims now ws s).1.reduceOption).length =
      min ws.length (s.jobs.countP (eligibleb now)) := by
  intro ws
  induction ws with
  | nil => intro s _; simp [runClaims]
  | cons w rest ih =>
    intro s hnd
    rcases hcl : (claimNextJob w now s).1 with _ | j2
    · have h0 := claimNextJob_none w now s hcl
      simp only [runClaims]
      rw [hcl, List.reduceOption_cons_of_none, h0.2, ih s hnd, h0.1]
      simp
    · obtain ⟨j, hmem, helig, hid, hproc, hjobs⟩ := claimNextJob_some w now s j2 hcl
      have hj2f : eligibleb now j2 = false := by simp [eligibleb, hproc]
      have hco : (claimNextJob w now s).2.jobs.countP (eligibleb now) + 1 =
          s.jobs.countP (eligibleb now) := by
        rw [hjobs]
        exact countP_update_list s.jobs (eligibleb now) j j2 hnd hmem helig hj2f
      have hnd1 : ((claimNextJob w now s).2.jobs.map Job.id).Nodup := by
        rw [hjobs, ids_after_claim s.jobs j j2 hid]
        exact hnd
      have ihh := ih (claimNextJob w now s).2 hnd1
      simp only [runClaims]
      rw [hcl, List.reduceOption_cons_of_some, List.length_cons, ihh, ← hco,
        List.length_cons, Nat.succ_min_succ]

theorem runClaims_distinct (now : Int) : ∀ (ws : List String) (s : Store),
    (s.jobs.map Job.id).Nodup →
    (((runClaims now ws s).1.reduceOption).map Job.id).Nodup := by
  intro ws
  induction ws with
  | nil => intro s _; simp [runClaims]
  | cons w rest ih =>
    intro s hnd
    rcases hcl : (claimNextJob w now s).1 with _ | j2
    · have h0 := claimNextJob_none w now s hcl
      simp only [runClaims]
      rw [hcl, List.reduceOption_cons_of_none, h0.2]
      exact ih s hnd
    · obtain ⟨j, hmem, helig, hid, hproc, hjobs⟩ := claimNextJob_some w now s j2 hcl
      have hj2f : eligibleb now j2 = false := by simp [eligibleb, hproc]
      have hnd1 : ((claimNextJob w now s).2.jobs.map Job.id).Nodup := by
        rw [hjobs, ids_after_claim s.jobs j j2 hid]
        exact hnd
      simp only [runClaims]
      rw [hcl, List.reduceOption_cons_of_some, List.map_cons]
      rw [List.nodup_cons]
      refine ⟨?_, ih (claimNextJob w now s).2 hnd1⟩
      intro hcon
      rcases List.mem_map.mp hcon with ⟨jr, hjr, hjrid⟩
      rw [List.reduceOption_mem_iff] at hjr
      obtain ⟨x, hxmem, hxelig, hxid⟩ :=
        runClaims_returns now rest (claimNextJob w now s).2 jr hjr
      rw [hjobs] at hxmem
      have hne := elig_after_claim s.jobs (eligibleb now) j j2 hj2f x hxmem hxelig
      apply hne
      rw [hxid, hjrid, hid]

theorem runClaims_processing (now : Int) : ∀ (ws : List String) (s : Store) (jr : Job),
    some jr ∈ (runClaims now ws s).1 → jr.status = JobStatus.processing := by
  intro ws
  induction ws with
  | nil => intro s jr h; simp [runClaims] at h
  | cons w rest ih =>
    intro s jr h
    simp only [runClaims, List.mem_cons] at h
    rcases h with hhead | htail
    · obtain ⟨_, _, _, _, hproc, _⟩ := claimNextJob_some w now s jr hhead.symm
      exact hproc
    · exact ih (claimNextJob w now s).2 jr htail

/-- C1: a concurrent execution of N claim calls is, by the spec's
atomicity requirement, a serialization of N atomic `claimNextJob` steps;
over any store whose job ids are distinct (the primary key), exactly
min(N, M) of the callers receive a job, where M is the number of
eligible Pending jobs; the returned jobs have pairwise distinct ids (no
job is handed to two callers, so no two workers ever hold Processing
ownership of the same job), and every returned job is in Processing. -/
theorem claimNextJob_concurrent_min_distinct (now : Int) (ws : List String)
    (s : Store) (hnd : (s.jobs.map Job.id).Nodup) :
    ((runClaims now ws s).1.reduceOption).length =
      min ws.length (s.jobs.countP (eligibleb now)) ∧
    (((runClaims now ws s).1.reduceOption).map Job.id).Nodup ∧
    ∀ jr : Job, some jr ∈ (runClaims now ws s).1 →
      jr.status = JobStatus.processing :=
  ⟨runClaims_count now ws s hnd, runClaims_distinct now ws s hnd,
   fun jr h => runClaims_processing now ws s jr h⟩

/-- C1 witness: three workers race for two eligible Pending jobs —
exactly two claims succeed and the claimed ids are distinct. -/
theorem claimNextJob_concurrent_min_distinct_witness :
    ((runClaims 50 ["w1", "w2", "w3"]
        ⟨[mkJob 1 "a@x.com" 1 0, mkJob 1 "b@x.com" 2 0], [], 3, 1⟩).1.reduceOption).length =
      2 ∧
    (((runClaims 50 ["w1", "w2", "w3"]
        ⟨[mkJob 1 "a@x.com" 1 0, mkJob 1 "b@x.com" 2 0], [], 3, 1⟩).1.reduceOption).map
        Job.id).Nodup :=
  ⟨(claimNextJob_concurrent_min_distinct 50 ["w1", "w2", "w3"]
      ⟨[mkJob 1 "a@x.com" 1 0, mkJob 1 "b@x.com" 2 0], [], 3, 1⟩ (by decide)).1,
   (claimNextJob_concurrent_min_distinct 50 ["w1", "w2", "w3"]
      ⟨[mkJob 1 "a@x.com" 1 0, mkJob 1 "b@x.com" 2 0], [], 3, 1⟩ (by decide)).2.1⟩

end Backend
